import Mathlib

/-!
Shallow embedding of `indicium/base.py`: the Store interface's default
`contains`, the `query_iterable` filtering/pagination algorithm (built on
Python's `fnmatch.translate` glob-to-regex translation and `re`-style
anchored matching with DOTALL), the `DictStore` in-memory reference store,
the `NullStore` sinkhole store and the `Cache` read-through/write-through
decorator over two stores.

Python values are modelled as `Option α`: `none` stands for Python `None`
(the absent signal), `some a` for any other object.  A `dict` is modelled
as an association list in insertion order with unique keys, which is the
observable behaviour of a Python dict.
-/

/-- Modelled from the spec: the repository's `indicium/key.py` is not part of
the provided sources, only its caller `base.py` and its test are.  Section 4.1
of the specification states the contract of `normalize`: a pure, deterministic,
idempotent function from strings to strings "producing a canonical path-like
form (e.g., ensuring a single leading separator, collapsing redundant
separators)".  `splitSlash` splits a character list on the `/` separator;
`key.normalize` drops the empty components and rebuilds the path with a single
leading separator, exactly the canonicalisation the specification describes. -/
def splitSlash : List Char → List (List Char)
  | [] => [[]]
  | '/' :: rest => [] :: splitSlash rest
  | c :: rest =>
    match splitSlash rest with
    | [] => [[c]]
    | g :: gs => (c :: g) :: gs

/-- Modelled from the spec: `indicium.key.normalize` (see `splitSlash` above).
Ensures a single leading `/` and collapses redundant separators; both keys and
query patterns pass through it before being used. -/
def key.normalize (s : String) : String :=
  ⟨'/' :: (List.intercalate ['/'] ((splitSlash s.data).filter (· ≠ [])))⟩

namespace fnmatch

/-- One member of a glob character class `[...]`: either a single character or
a `a-b` range, as produced by Python's `fnmatch.translate`. -/
inductive SetItem : Type
  | single (c : Char)
  | range (a b : Char)
deriving DecidableEq

/-- A token of the regular expression produced by `fnmatch.translate`:
`any` is `.` (with `re.DOTALL`, so it matches every character including the
path separator), `star` is `.*`, `lit c` is the escaped literal character `c`,
and `cls neg items` is a (possibly negated) character class. -/
inductive Tok : Type
  | any
  | star
  | lit (c : Char)
  | cls (neg : Bool) (items : List SetItem)
deriving DecidableEq

/-- Scan for the closing `]` of a character class: returns the content before
the first `]` and the remainder after it, or `none` when no `]` follows
(in which case `fnmatch.translate` treats the `[` as a literal). -/
def scanClose : List Char → Option (List Char × List Char)
  | [] => none
  | ']' :: rest => some ([], rest)
  | c :: rest => (scanClose rest).map (fun p => (c :: p.1, p.2))

/-- The class-content scan of `fnmatch.translate`: immediately after `[`,
a leading `!` and a leading `]` (also right after the `!`) are part of the
content, then everything up to the next `]` is the content. -/
def splitClass : List Char → Option (List Char × List Char)
  | '!' :: ']' :: rest => (scanClose rest).map (fun p => ('!' :: ']' :: p.1, p.2))
  | '!' :: rest => (scanClose rest).map (fun p => ('!' :: p.1, p.2))
  | ']' :: rest => (scanClose rest).map (fun p => (']' :: p.1, p.2))
  | rest => scanClose rest

/-- Parse the content of a character class into single characters and ranges,
with the regex rules: `a-b` between two characters is a range, a `-` at the
start or the end of the content is a literal. -/
def parseItems : List Char → List SetItem
  | a :: '-' :: b :: rest => SetItem.range a b :: parseItems rest
  | a :: rest => SetItem.single a :: parseItems rest
  | [] => []

/-- Build the class token: a leading `!` negates the class. -/
def mkClass (content : List Char) : Tok :=
  match content with
  | '!' :: rest => Tok.cls true (parseItems rest)
  | _ => Tok.cls false (parseItems content)

/-- Worker for `fnmatch.translate` with explicit fuel (each step consumes at
least one pattern character, so `cs.length` fuel always suffices; the fuel
only makes the recursion structural). `*` becomes `star`, `?` becomes `any`,
`[...]` becomes a class token (or a literal `[` when unbalanced) and every
other character — the backslash included, `fnmatch` has no escape syntax —
becomes a literal token. -/
def translateGo : Nat → List Char → List Tok
  | 0, _ => []
  | _ + 1, [] => []
  | fuel + 1, '*' :: ps => Tok.star :: translateGo fuel ps
  | fuel + 1, '?' :: ps => Tok.any :: translateGo fuel ps
  | fuel + 1, '[' :: ps =>
    match splitClass ps with
    | none => Tok.lit '[' :: translateGo fuel ps
    | some (content, rest) => mkClass content :: translateGo fuel rest
  | fuel + 1, c :: ps => Tok.lit c :: translateGo fuel ps

/-- Python's `fnmatch.translate`, as a function to regex tokens. -/
def translate (cs : List Char) : List Tok := translateGo cs.length cs

/-- Does one class item match a character?  Ranges compare by code point. -/
def itemMatch (i : SetItem) (c : Char) : Bool :=
  match i with
  | SetItem.single a => a == c
  | SetItem.range a b => decide (a ≤ c) && decide (c ≤ b)

/-- Does a (possibly negated) character class match a character? -/
def clsMatch (neg : Bool) (items : List SetItem) (c : Char) : Bool :=
  let m := items.any (fun i => itemMatch i c)
  if neg then !m else m

/-- Anchored matching of the token list against a character list, the
semantics of `re.compile(..., re.DOTALL).match` on the `(?s:...)\Z`-anchored
output of `fnmatch.translate`: the whole input must be consumed.  `star`
(`.*`) matches when the rest of the tokens match some suffix of the input;
with DOTALL it consumes any characters, the path separator included. -/
def rmatch : List Tok → List Char → Bool
  | [], s => s.isEmpty
  | Tok.star :: ts, s => s.tails.any (fun suf => rmatch ts suf)
  | Tok.any :: ts, s =>
    match s with
    | [] => false
    | _ :: s' => rmatch ts s'
  | Tok.lit a :: ts, s =>
    match s with
    | [] => false
    | c :: s' => a == c && rmatch ts s'
  | Tok.cls n items :: ts, s =>
    match s with
    | [] => false
    | c :: s' => clsMatch n items c && rmatch ts s'

/-- `re.compile(fnmatch.translate(pattern), re.DOTALL).match(key)` being
non-`None`, i.e. the key fully matches the glob pattern. -/
def fullmatch (pattern s : String) : Bool := rmatch (translate pattern.data) s.data

end fnmatch

/-- Lexicographic comparison of character lists by code point — the order
Python uses when `sorted` compares the string keys. -/
def charListLe : List Char → List Char → Bool
  | [], _ => true
  | _ :: _, [] => false
  | a :: as, b :: bs => if a = b then charListLe as bs else decide (a < b)

/-- The sort key used by `query_iterable`: compare pairs by their first
component (`sorted(iterable, key=lambda x: x[0])`). -/
def keyLE {β : Type} (a b : String × β) : Prop := charListLe a.1.data b.1.data = true

instance {β : Type} : DecidableRel (@keyLE β) := fun a b => by
  unfold keyLE; infer_instance

/-- Python's `sorted(iterable, key=lambda x: x[0])`: a stable sort of the
pairs by string key. -/
def sortByKey {β : Type} (l : List (String × β)) : List (String × β) :=
  List.insertionSort keyLE l

/-- `indicium.base.query_iterable`: normalize the pattern; filter by glob
match unless the normalized pattern is the match-everything form `"/*"`;
then apply limit/offset, sorting by key first whenever a limit is given or
the offset is positive (`islice(sorted(...), offset, None)` and
`islice(sorted(...), offset, offset + limit)`). -/
def query_iterable {β : Type} (iterable : List (String × β)) (pattern : String)
    (limit : Option Nat) (offset : Nat) : List (String × β) :=
  let pattern := key.normalize pattern
  let iterable :=
    if pattern ≠ "/*" then iterable.filter (fun kv => fnmatch.fullmatch pattern kv.1)
    else iterable
  match limit with
  | none => if 0 < offset then (sortByKey iterable).drop offset else iterable
  | some l => ((sortByKey iterable).drop offset).take l

/-- The filtering step of `query_iterable` on its own (the state of the
`iterable` right before pagination is applied). -/
def matchedEntries {β : Type} (iterable : List (String × β)) (pattern : String) :
    List (String × β) :=
  if key.normalize pattern ≠ "/*" then
    iterable.filter (fun kv => fnmatch.fullmatch (key.normalize pattern) kv.1)
  else iterable

/-- The backing mapping of a `DictStore` (`self._items`): a Python dict from
normalized key to stored value, in insertion order.  A stored value `none`
models a stored Python `None`. -/
abbrev DictState (α : Type) := List (String × Option α)

/-- `self._items.get(k, None)`: the stored value, or `None` when missing. -/
def dictGetRaw {α : Type} : DictState α → String → Option α
  | [], _ => none
  | (k', v') :: rest, k => if k' = k then v' else dictGetRaw rest k

/-- `self._items[k] = v`: overwrite in place when the key is present,
append otherwise (Python dicts keep insertion order). -/
def dictPutRaw {α : Type} : DictState α → String → Option α → DictState α
  | [], k, v => [(k, v)]
  | (k', v') :: rest, k, v =>
    if k' = k then (k', v) :: rest else (k', v') :: dictPutRaw rest k v

/-- `try: del self._items[k] except KeyError: pass`: remove the entry when
present, do nothing otherwise. -/
def dictDeleteRaw {α : Type} : DictState α → String → DictState α
  | [], _ => []
  | (k', v') :: rest, k => if k' = k then rest else (k', v') :: dictDeleteRaw rest k

/-- `k in self._items`: raw key membership, regardless of the stored value. -/
def dictHasKey {α : Type} : DictState α → String → Bool
  | [], _ => false
  | (k', _) :: rest, k => (k' == k) || dictHasKey rest k

/-- `DictStore.get`: `self._items.get(normalize(key), None)`. -/
def DictStore.get {α : Type} (m : DictState α) (k : String) : Option α :=
  dictGetRaw m (key.normalize k)

/-- `DictStore.put`: `self._items[normalize(key)] = value`. -/
def DictStore.put {α : Type} (m : DictState α) (k : String) (v : Option α) :
    DictState α :=
  dictPutRaw m (key.normalize k) v

/-- `DictStore.delete`: delete `normalize(key)`, swallowing `KeyError`. -/
def DictStore.delete {α : Type} (m : DictState α) (k : String) : DictState α :=
  dictDeleteRaw m (key.normalize k)

/-- `DictStore.contains`: `normalize(key) in self._items` — the override that
tests raw key membership instead of going through `get`. -/
def DictStore.contains {α : Type} (m : DictState α) (k : String) : Bool :=
  dictHasKey m (key.normalize k)

/-- `DictStore.query`: `query_iterable(self._items.items(), ...)`. -/
def DictStore.query {α : Type} (m : DictState α) (pattern : String)
    (limit : Option Nat) (offset : Nat) : List (String × Option α) :=
  query_iterable m pattern limit offset

/-- The default `Store.contains`, parameterized by the implementation's
`get`: `self.get(key) is not None`. -/
def Store.contains {α : Type} (get : String → Option α) (k : String) : Bool :=
  (get k).isSome

/-- `NullStore.get`: always `None`. -/
def NullStore.get {α : Type} (_k : String) : Option α := none

/-- `NullStore.put`: a no-op (the value is discarded; there is no state). -/
def NullStore.put {α : Type} (_k : String) (_v : Option α) : Unit := ()

/-- `NullStore.delete`: a no-op. -/
def NullStore.delete (_k : String) : Unit := ()

/-- `NullStore.query` exactly as declared in the source: its signature is
`query(self, limit=None, offset=0)` — it takes only two parameters (of any
type, Python being untyped) and there is no `pattern` parameter, unlike the
abstract `Store.query(pattern, limit=None, offset=0)` it overrides.  It
always returns the empty tuple. -/
def NullStore.query {α β γ : Type} (_limit : β) (_offset : γ) : List (String × α) :=
  []

/-- The state of a `Cache` over two `DictStore`s: `(self.cache._items,
self.child._items)` — the cache store first, the backing store second. -/
abbrev CacheState (α : Type) := DictState α × DictState α

/-- `Cache.get`: read the cache; on `None` read the backing store and, when
the backing value is not `None`, populate the cache with it before returning.
Returns the value together with the state after the call. -/
def Cache.get {α : Type} (st : CacheState α) (k : String) : Option α × CacheState α :=
  match DictStore.get st.1 k with
  | some v => (some v, st)
  | none =>
    match DictStore.get st.2 k with
    | some v => (some v, (DictStore.put st.1 k (some v), st.2))
    | none => (none, st)

/-- `Cache.put`: write-through to the cache store and the backing store. -/
def Cache.put {α : Type} (st : CacheState α) (k : String) (v : Option α) :
    CacheState α :=
  (DictStore.put st.1 k v, DictStore.put st.2 k v)

/-- `Cache.delete`: delete from the cache store and the backing store. -/
def Cache.delete {α : Type} (st : CacheState α) (k : String) : CacheState α :=
  (DictStore.delete st.1 k, DictStore.delete st.2 k)

/-- `Cache.contains`: `self.cache.contains(key) or self.child.contains(key)`
with both children being `DictStore`s. -/
def Cache.contains {α : Type} (st : CacheState α) (k : String) : Bool :=
  DictStore.contains st.1 k || DictStore.contains st.2 k

/-- A mutating operation of the Store interface (for "after any sequence of
put/delete operations" claims). -/
inductive Op (α : Type) : Type
  | put (k : String) (v : Option α)
  | del (k : String)

/-- The key an operation addresses. -/
def Op.key {α : Type} : Op α → String
  | Op.put k _ => k
  | Op.del k => k

/-- One operation applied to a `DictStore`. -/
def dictStep {α : Type} (m : DictState α) : Op α → DictState α
  | Op.put k v => DictStore.put m k v
  | Op.del k => DictStore.delete m k

/-- A sequence of operations applied to a `DictStore` from a given state. -/
def dictRunFrom {α : Type} (m : DictState α) (ops : List (Op α)) : DictState α :=
  ops.foldl dictStep m

/-- A sequence of operations applied to a fresh `DictStore`. -/
def dictRun {α : Type} (ops : List (Op α)) : DictState α := dictRunFrom [] ops

/-- One operation applied to a `Cache` of two `DictStore`s. -/
def cacheStep {α : Type} (st : CacheState α) : Op α → CacheState α
  | Op.put k v => Cache.put st k v
  | Op.del k => Cache.delete st k

/-- A sequence of operations applied to a `Cache` from a given state. -/
def cacheRunFrom {α : Type} (st : CacheState α) (ops : List (Op α)) : CacheState α :=
  ops.foldl cacheStep st

/-- A sequence of operations applied to a `Cache` of two fresh `DictStore`s. -/
def cacheRun {α : Type} (ops : List (Op α)) : CacheState α := cacheRunFrom ([], []) ops

/-- No operation of the sequence stores the Python value `None` (the absent
signal) as a value. -/
def noAbsentPut {α : Type} (ops : List (Op α)) : Bool :=
  ops.all (fun op =>
    match op with
    | Op.put _ v => v.isSome
    | Op.del _ => true)


/-! Helper lemmas about the dict model. -/

theorem stringDataEq {s t : String} (h : s.data = t.data) : s = t := by
  cases s; cases t; exact congrArg String.mk h

theorem dictGetRaw_putRaw_self {α : Type} (m : DictState α) (k : String) (v : Option α) :
    dictGetRaw (dictPutRaw m k v) k = v := by
  induction m with
  | nil => simp [dictPutRaw, dictGetRaw]
  | cons hd tl ih =>
    obtain ⟨k', v'⟩ := hd
    by_cases h : k' = k
    · simp [dictPutRaw, dictGetRaw, h]
    · simp [dictPutRaw, dictGetRaw, h, ih]

theorem dictGetRaw_putRaw_ne {α : Type} (m : DictState α) (k j : String) (v : Option α)
    (h : j ≠ k) : dictGetRaw (dictPutRaw m k v) j = dictGetRaw m j := by
  have hkj : k ≠ j := Ne.symm h
  induction m with
  | nil => simp [dictPutRaw, dictGetRaw, hkj]
  | cons hd tl ih =>
    obtain ⟨k', v'⟩ := hd
    by_cases hk : k' = k
    · subst hk
      simp [dictPutRaw, dictGetRaw, hkj]
    · simp [dictPutRaw, dictGetRaw, hk, ih]

theorem dictGetRaw_deleteRaw_ne {α : Type} (m : DictState α) (k j : String)
    (h : j ≠ k) : dictGetRaw (dictDeleteRaw m k) j = dictGetRaw m j := by
  have hkj : k ≠ j := Ne.symm h
  induction m with
  | nil => simp [dictDeleteRaw]
  | cons hd tl ih =>
    obtain ⟨k', v'⟩ := hd
    by_cases hk : k' = k
    · subst hk
      simp [dictDeleteRaw, dictGetRaw, hkj]
    · simp [dictDeleteRaw, dictGetRaw, hk, ih]

theorem dictGetRaw_eq_none_of_not_mem {α : Type} (m : DictState α) (k : String)
    (h : ∀ p ∈ m, p.1 ≠ k) : dictGetRaw m k = none := by
  induction m with
  | nil => rfl
  | cons hd tl ih =>
    obtain ⟨k', v'⟩ := hd
    have hk : k' ≠ k := h (k', v') (by simp)
    simp only [dictGetRaw, if_neg hk]
    exact ih (fun p hp => h p (by simp [hp]))

theorem dictGetRaw_deleteRaw_self {α : Type} (m : DictState α) (k : String)
    (hm : (m.map Prod.fst).Nodup) : dictGetRaw (dictDeleteRaw m k) k = none := by
  induction m with
  | nil => rfl
  | cons hd tl ih =>
    obtain ⟨k', v'⟩ := hd
    simp only [List.map_cons, List.nodup_cons] at hm
    by_cases hk : k' = k
    · subst hk
      simp only [dictDeleteRaw, if_pos rfl]
      refine dictGetRaw_eq_none_of_not_mem tl k' (fun p hp h' => hm.1 ?_)
      exact h' ▸ List.mem_map_of_mem Prod.fst hp
    · simp only [dictDeleteRaw, if_neg hk, dictGetRaw, if_neg hk]
      exact ih hm.2

theorem dictHasKey_putRaw_self {α : Type} (m : DictState α) (k : String) (v : Option α) :
    dictHasKey (dictPutRaw m k v) k = true := by
  induction m with
  | nil => simp [dictPutRaw, dictHasKey]
  | cons hd tl ih =>
    obtain ⟨k', v'⟩ := hd
    by_cases h : k' = k
    · simp [dictPutRaw, dictHasKey, h]
    · simp [dictPutRaw, dictHasKey, h, ih]

theorem deleteRaw_of_hasKey_eq_false {α : Type} (m : DictState α) (k : String)
    (h : dictHasKey m k = false) : dictDeleteRaw m k = m := by
  induction m with
  | nil => rfl
  | cons hd tl ih =>
    obtain ⟨k', v'⟩ := hd
    simp only [dictHasKey, Bool.or_eq_false_iff] at h
    have h1 : k' ≠ k := by simpa using h.1
    simp [dictDeleteRaw, h1, ih h.2]

theorem dictHasKey_iff_mem_keys {α : Type} (m : DictState α) (k : String) :
    dictHasKey m k = true ↔ k ∈ m.map Prod.fst := by
  induction m with
  | nil => simp [dictHasKey]
  | cons hd tl ih =>
    obtain ⟨k', v'⟩ := hd
    simp only [dictHasKey, List.map_cons, List.mem_cons, Bool.or_eq_true, beq_iff_eq, ih]
    constructor
    · rintro (h | h)
      · exact Or.inl h.symm
      · exact Or.inr h
    · rintro (h | h)
      · exact Or.inl h.symm
      · exact Or.inr h

/-- All values of the mapping are non-`None` Python objects. -/
def valuesSome {α : Type} (m : DictState α) : Prop := ∀ kv ∈ m, kv.2.isSome = true

theorem valuesSome_putRaw {α : Type} {m : DictState α} {k : String} {v : Option α}
    (hm : valuesSome m) (hv : v.isSome = true) : valuesSome (dictPutRaw m k v) := by
  induction m with
  | nil =>
    intro kv hkv
    simp only [dictPutRaw, List.mem_singleton] at hkv
    subst hkv
    exact hv
  | cons hd tl ih =>
    obtain ⟨k', v'⟩ := hd
    have htl : valuesSome tl := fun kv hkv => hm kv (List.mem_cons_of_mem _ hkv)
    intro kv hkv
    by_cases h : k' = k
    · simp only [dictPutRaw, if_pos h] at hkv
      rcases List.mem_cons.mp hkv with h' | h'
      · subst h'; exact hv
      · exact htl kv h'
    · simp only [dictPutRaw, if_neg h] at hkv
      rcases List.mem_cons.mp hkv with h' | h'
      · subst h'; exact hm (k', v') (List.mem_cons_self _ _)
      · exact ih htl kv h'

theorem deleteRaw_sublist {α : Type} (m : DictState α) (k : String) :
    (dictDeleteRaw m k).Sublist m := by
  induction m with
  | nil => simp [dictDeleteRaw]
  | cons hd tl ih =>
    obtain ⟨k', v'⟩ := hd
    by_cases h : k' = k
    · simp only [dictDeleteRaw, if_pos h]
      exact List.sublist_cons_self _ _
    · simp only [dictDeleteRaw, if_neg h]
      exact ih.cons₂ _

theorem valuesSome_deleteRaw {α : Type} {m : DictState α} (k : String)
    (hm : valuesSome m) : valuesSome (dictDeleteRaw m k) :=
  fun kv hkv => hm kv ((deleteRaw_sublist m k).mem hkv)

theorem dictHasKey_iff_getRaw {α : Type} (m : DictState α) (k : String)
    (hm : valuesSome m) : (dictHasKey m k = true ↔ dictGetRaw m k ≠ none) := by
  induction m with
  | nil => simp [dictHasKey, dictGetRaw]
  | cons hd tl ih =>
    obtain ⟨k', v'⟩ := hd
    have htl : valuesSome tl := fun kv hkv => hm kv (List.mem_cons_of_mem _ hkv)
    by_cases h : k' = k
    · have hv : v'.isSome = true := hm (k', v') (List.mem_cons_self _ _)
      simp [dictHasKey, dictGetRaw, h, Option.isSome_iff_ne_none.mp hv]
    · simp [dictHasKey, dictGetRaw, h, ih htl]

theorem mem_keys_putRaw {α : Type} (m : DictState α) (k x : String) (v : Option α) :
    x ∈ (dictPutRaw m k v).map Prod.fst ↔ x ∈ m.map Prod.fst ∨ x = k := by
  induction m with
  | nil => simp [dictPutRaw]
  | cons hd tl ih =>
    obtain ⟨k', v'⟩ := hd
    by_cases h : k' = k
    · subst h
      have e : dictPutRaw ((k', v') :: tl) k' v = (k', v) :: tl := by
        simp [dictPutRaw]
      rw [e]
      simp only [List.map_cons, List.mem_cons]
      tauto
    · have e : dictPutRaw ((k', v') :: tl) k v = (k', v') :: dictPutRaw tl k v := by
        simp [dictPutRaw, h]
      rw [e]
      simp only [List.map_cons, List.mem_cons, ih]
      tauto

theorem keysNodup_putRaw {α : Type} {m : DictState α} (k : String) (v : Option α)
    (hm : (m.map Prod.fst).Nodup) : ((dictPutRaw m k v).map Prod.fst).Nodup := by
  induction m with
  | nil => simp [dictPutRaw]
  | cons hd tl ih =>
    obtain ⟨k', v'⟩ := hd
    simp only [List.map_cons, List.nodup_cons] at hm
    by_cases h : k' = k
    · subst h
      have e : dictPutRaw ((k', v') :: tl) k' v = (k', v) :: tl := by
        simp [dictPutRaw]
      rw [e]
      simp only [List.map_cons, List.nodup_cons]
      exact ⟨hm.1, hm.2⟩
    · have e : dictPutRaw ((k', v') :: tl) k v = (k', v') :: dictPutRaw tl k v := by
        simp [dictPutRaw, h]
      rw [e]
      simp only [List.map_cons, List.nodup_cons]
      refine ⟨fun hx => ?_, ih hm.2⟩
      rcases (mem_keys_putRaw tl k k' v).mp hx with hx | hx
      · exact hm.1 hx
      · exact h hx

theorem keysNodup_deleteRaw {α : Type} {m : DictState α} (k : String)
    (hm : (m.map Prod.fst).Nodup) : ((dictDeleteRaw m k).map Prod.fst).Nodup :=
  List.Nodup.sublist ((deleteRaw_sublist m k).map Prod.fst) hm

/-! Order properties of the sort key. -/

theorem charListLe_total : ∀ (as bs : List Char),
    charListLe as bs = true ∨ charListLe bs as = true
  | [], _ => Or.inl rfl
  | _ :: _, [] => Or.inr rfl
  | a :: as, b :: bs => by
    by_cases h : a = b
    · subst h
      rcases charListLe_total as bs with h' | h'
      · exact Or.inl (by simp [charListLe, h'])
      · exact Or.inr (by simp [charListLe, h'])
    · rcases lt_or_gt_of_ne h with hlt | hgt
      · refine Or.inl ?_
        simp [charListLe, h, hlt]
      · refine Or.inr ?_
        simp [charListLe, Ne.symm h, hgt]

theorem charListLe_trans : ∀ (as bs cs : List Char),
    charListLe as bs = true → charListLe bs cs = true → charListLe as cs = true
  | [], _, _, _, _ => rfl
  | _ :: _, [], _, h1, _ => by simp [charListLe] at h1
  | _ :: _, _ :: _, [], _, h2 => by simp [charListLe] at h2
  | a :: as, b :: bs, c :: cs, h1, h2 => by
    by_cases hab : a = b
    · subst hab
      by_cases hac : a = c
      · subst hac
        simp only [charListLe, if_pos rfl] at h1 h2 ⊢
        exact charListLe_trans as bs cs h1 h2
      · simp only [charListLe, if_pos rfl] at h1
        simp only [charListLe, if_neg hac] at h2 ⊢
        exact h2
    · have h1' : a < b := by
        simpa [charListLe, hab] using h1
      by_cases hbc : b = c
      · subst hbc
        simp [charListLe, hab, h1']
      · have h2' : b < c := by
          simpa [charListLe, hbc] using h2
        have hac : a < c := lt_trans h1' h2'
        simp [charListLe, ne_of_lt hac, hac]

theorem charListLe_antisymm : ∀ (as bs : List Char),
    charListLe as bs = true → charListLe bs as = true → as = bs
  | [], [], _, _ => rfl
  | [], _ :: _, _, h2 => by simp [charListLe] at h2
  | _ :: _, [], h1, _ => by simp [charListLe] at h1
  | a :: as, b :: bs, h1, h2 => by
    by_cases hab : a = b
    · subst hab
      simp only [charListLe, if_pos rfl] at h1 h2
      rw [charListLe_antisymm as bs h1 h2]
    · have h1' : a < b := by simpa [charListLe, hab] using h1
      have h2' : b < a := by simpa [charListLe, Ne.symm hab] using h2
      exact absurd h2' (not_lt_of_gt h1')

instance {β : Type} : IsTotal (String × β) keyLE :=
  ⟨fun a b => charListLe_total a.1.data b.1.data⟩

instance {β : Type} : IsTrans (String × β) keyLE :=
  ⟨fun _ _ _ h1 h2 => charListLe_trans _ _ _ h1 h2⟩

theorem sortByKey_perm {β : Type} (l : List (String × β)) : (sortByKey l).Perm l :=
  List.perm_insertionSort keyLE l

theorem sortByKey_sorted {β : Type} (l : List (String × β)) :
    List.Sorted keyLE (sortByKey l) :=
  List.sorted_insertionSort keyLE l

theorem sortByKey_eq_of_perm {β : Type} (l₁ l₂ : List (String × β))
    (h : l₁.Perm l₂) (hnd : (l₁.map Prod.fst).Nodup) : sortByKey l₁ = sortByKey l₂ := by
  have hperm : (sortByKey l₁).Perm (sortByKey l₂) :=
    (sortByKey_perm l₁).trans (h.trans (sortByKey_perm l₂).symm)
  have hnd1 : ((sortByKey l₁).map Prod.fst).Nodup :=
    (((sortByKey_perm l₁).map Prod.fst).nodup_iff).mpr hnd
  have hnd2 : ((sortByKey l₂).map Prod.fst).Nodup :=
    (((sortByKey_perm l₂).map Prod.fst).nodup_iff).mpr ((h.map Prod.fst).nodup_iff.mp hnd)
  have hne1 : (sortByKey l₁).Pairwise (fun a b => a.1 ≠ b.1) := List.pairwise_map.mp hnd1
  have hne2 : (sortByKey l₂).Pairwise (fun a b => a.1 ≠ b.1) := List.pairwise_map.mp hnd2
  have hs1 : (sortByKey l₁).Pairwise (fun a b => keyLE a b ∧ a.1 ≠ b.1) :=
    (sortByKey_sorted l₁).and hne1
  have hs2 : (sortByKey l₂).Pairwise (fun a b => keyLE a b ∧ a.1 ≠ b.1) :=
    (sortByKey_sorted l₂).and hne2
  haveI : IsAntisymm (String × β) (fun a b => keyLE a b ∧ a.1 ≠ b.1) := by
    constructor
    intro a b hab hba
    exact absurd (stringDataEq (charListLe_antisymm _ _ hab.1 hba.1)) hab.2
  exact List.eq_of_perm_of_sorted hperm hs1 hs2

/-! Lemmas about operation sequences and the Cache decorator. -/

theorem dictRunFrom_keysNodup {α : Type} (ops : List (Op α)) :
    ∀ m : DictState α, (m.map Prod.fst).Nodup → ((dictRunFrom m ops).map Prod.fst).Nodup := by
  induction ops with
  | nil => intro m hm; exact hm
  | cons op ops ih =>
    intro m hm
    cases op with
    | put k v => exact ih _ (keysNodup_putRaw _ _ hm)
    | del k => exact ih _ (keysNodup_deleteRaw _ hm)

theorem dictRunFrom_valuesSome {α : Type} (ops : List (Op α)) :
    ∀ m : DictState α, valuesSome m → noAbsentPut ops = true →
      valuesSome (dictRunFrom m ops) := by
  induction ops with
  | nil => intro m hm _; exact hm
  | cons op ops ih =>
    intro m hm hops
    simp only [noAbsentPut, List.all_cons, Bool.and_eq_true] at hops
    have hops' : noAbsentPut ops = true := hops.2
    cases op with
    | put k v => exact ih _ (valuesSome_putRaw hm hops.1) hops'
    | del k => exact ih _ (valuesSome_deleteRaw _ hm) hops'

theorem dictStore_get_runFrom_frame {α : Type} (ops : List (Op α)) (k : String)
    (h : ∀ op ∈ ops, key.normalize op.key ≠ key.normalize k) :
    ∀ m : DictState α, DictStore.get (dictRunFrom m ops) k = DictStore.get m k := by
  induction ops with
  | nil => intro m; rfl
  | cons op ops ih =>
    intro m
    have hh : ∀ op' ∈ ops, key.normalize (Op.key op') ≠ key.normalize k :=
      fun op' hop' => h op' (List.mem_cons_of_mem _ hop')
    have hk : key.normalize op.key ≠ key.normalize k := h op (List.mem_cons_self _ _)
    cases op with
    | put j v =>
      have : DictStore.get (dictRunFrom (DictStore.put m j v) ops) k
          = DictStore.get (DictStore.put m j v) k := ih hh _
      rw [show dictRunFrom m (Op.put j v :: ops) = dictRunFrom (DictStore.put m j v) ops from rfl,
        this]
      exact dictGetRaw_putRaw_ne m (key.normalize j) (key.normalize k) v (Ne.symm hk)
    | del j =>
      have : DictStore.get (dictRunFrom (DictStore.delete m j) ops) k
          = DictStore.get (DictStore.delete m j) k := ih hh _
      rw [show dictRunFrom m (Op.del j :: ops) = dictRunFrom (DictStore.delete m j) ops from rfl,
        this]
      exact dictGetRaw_deleteRaw_ne m (key.normalize j) (key.normalize k) (Ne.symm hk)

theorem cacheRunFrom_eq {α : Type} (ops : List (Op α)) :
    ∀ st : CacheState α, cacheRunFrom st ops = (dictRunFrom st.1 ops, dictRunFrom st.2 ops) := by
  induction ops with
  | nil => intro st; rfl
  | cons op ops ih =>
    intro st
    have e : cacheRunFrom st (op :: ops) = cacheRunFrom (cacheStep st op) ops := rfl
    rw [e, ih]
    cases op with
    | put k v => rfl
    | del k => rfl

theorem cache_get_val {α : Type} (st : CacheState α) (k : String) :
    (Cache.get st k).1 = (match DictStore.get st.1 k with
      | some v => some v
      | none => DictStore.get st.2 k) := by
  cases h1 : DictStore.get st.1 k with
  | none => cases h2 : DictStore.get st.2 k <;> simp [Cache.get, h1, h2]
  | some v => simp [Cache.get, h1]

/-! Lemmas about the glob matcher. -/

theorem boolEqOfIff {a b : Bool} (h : a = true ↔ b = true) : a = b := by
  cases a <;> cases b <;> simp_all

theorem rmatch_star_iff (ts : List fnmatch.Tok) (s : List Char) :
    fnmatch.rmatch (fnmatch.Tok.star :: ts) s = true ↔
      ∃ n, fnmatch.rmatch ts (List.drop n s) = true := by
  induction s with
  | nil => simp [fnmatch.rmatch]
  | cons c s' ih =>
    have e : fnmatch.rmatch (fnmatch.Tok.star :: ts) (c :: s')
        = (fnmatch.rmatch ts (c :: s') || fnmatch.rmatch (fnmatch.Tok.star :: ts) s') := by
      simp [fnmatch.rmatch, List.tails_cons]
    rw [e]
    constructor
    · intro h
      have h' : fnmatch.rmatch ts (c :: s') = true
          ∨ fnmatch.rmatch (fnmatch.Tok.star :: ts) s' = true := by simpa using h
      rcases h' with h | h
      · exact ⟨0, h⟩
      · rcases ih.mp h with ⟨n, hn⟩
        exact ⟨n + 1, by simpa using hn⟩
    · rintro ⟨n, hn⟩
      cases n with
      | zero =>
        simp only [Bool.or_eq_true]
        exact Or.inl (by simpa using hn)
      | succ n =>
        simp only [Bool.or_eq_true]
        exact Or.inr (ih.mpr ⟨n, by simpa using hn⟩)

theorem rmatch_star_nil (s : List Char) :
    fnmatch.rmatch [fnmatch.Tok.star] s = true := by
  rw [rmatch_star_iff]
  exact ⟨s.length, by simp [fnmatch.rmatch]⟩

theorem fullmatch_root_star (k : String) (h : key.normalize k = k) :
    fnmatch.fullmatch "/*" k = true := by
  have hdata : k.data
      = '/' :: (List.intercalate ['/'] ((splitSlash k.data).filter (· ≠ []))) := by
    conv_lhs => rw [← h]
    rfl
  show fnmatch.rmatch (fnmatch.translate ("/*".data)) k.data = true
  rw [hdata]
  show (('/' : Char) == '/' && fnmatch.rmatch [fnmatch.Tok.star]
    (List.intercalate ['/'] ((splitSlash k.data).filter (· ≠ [])))) = true
  simp [rmatch_star_nil]

/-- Unfolding `query_iterable` through `matchedEntries`. -/
theorem query_iterable_eq {β : Type} (it : List (String × β)) (p : String)
    (L : Option Nat) (O : Nat) :
    query_iterable it p L O = (match L with
      | none =>
        if 0 < O then (sortByKey (matchedEntries it p)).drop O else matchedEntries it p
      | some l => ((sortByKey (matchedEntries it p)).drop O).take l) := rfl

theorem matchedEntries_perm {β : Type} {it it' : List (String × β)} (p : String)
    (h : it.Perm it') : (matchedEntries it p).Perm (matchedEntries it' p) := by
  unfold matchedEntries
  split
  · exact h.filter _
  · exact h

theorem matchedEntries_sublist {β : Type} (it : List (String × β)) (p : String) :
    (matchedEntries it p).Sublist it := by
  unfold matchedEntries
  split
  · exact List.filter_sublist it
  · exact List.Sublist.refl it

/-! Claim theorems. -/

/-- C1 (counterexample): the claim says the query pattern segment `*` never
matches across a path separator, so `"/a/*"` should not retain the key
`"/a/b/c"`; but `query_iterable` keeps that entry, because `fnmatch`
translates `*` to `.*` and the code compiles it with `re.DOTALL`. -/
theorem C1_counterexample :
    query_iterable [("/a/b/c", some 1)] "/a/*" none 0
      = [("/a/b/c", (some 1 : Option Nat))] := by decide

/-- C1 (amended): in `query_iterable` the pattern segment `*` matches zero or
more characters *including* the path separator (so `**` is equivalent to `*`):
`translate` turns `*` into the `star` token, `star` matches any dropped prefix
of the input, two consecutive `star`s match exactly what one does, and for
entries with normalized keys `query_iterable` (without pagination) retains a
pair exactly when the key fully matches the fnmatch-translation of the
normalized pattern. -/
theorem C1_star_crosses_separators :
    (∀ (entries : List (String × Option Nat)) (p : String),
      (∀ kv ∈ entries, key.normalize kv.1 = kv.1) →
      query_iterable entries p none 0
        = entries.filter (fun kv => fnmatch.fullmatch (key.normalize p) kv.1)) ∧
    (∀ (ts : List fnmatch.Tok) (s : List Char),
      fnmatch.rmatch (fnmatch.Tok.star :: ts) s = true ↔
        ∃ n, fnmatch.rmatch ts (List.drop n s) = true) ∧
    (∀ (ts : List fnmatch.Tok) (s : List Char),
      fnmatch.rmatch (fnmatch.Tok.star :: fnmatch.Tok.star :: ts) s
        = fnmatch.rmatch (fnmatch.Tok.star :: ts) s) ∧
    (∀ ps : List Char,
      fnmatch.translate ('*' :: ps) = fnmatch.Tok.star :: fnmatch.translate ps) := by
  refine ⟨?_, rmatch_star_iff, ?_, fun ps => rfl⟩
  · intro entries p hkeys
    have e : query_iterable entries p none 0 = matchedEntries entries p := rfl
    rw [e]
    by_cases h : key.normalize p = "/*"
    · have e2 : matchedEntries entries p = entries := by simp [matchedEntries, h]
      rw [e2, h]
      symm
      exact List.filter_eq_self.mpr (fun kv hkv => fullmatch_root_star kv.1 (hkeys kv hkv))
    · simp [matchedEntries, h]
  · intro ts s
    apply boolEqOfIff
    rw [rmatch_star_iff, rmatch_star_iff]
    constructor
    · rintro ⟨n, hn⟩
      rcases (rmatch_star_iff ts (s.drop n)).mp hn with ⟨m, hm⟩
      rw [List.drop_drop] at hm
      exact ⟨_, hm⟩
    · rintro ⟨n, hn⟩
      exact ⟨n, (rmatch_star_iff ts (s.drop n)).mpr ⟨0, by simpa using hn⟩⟩

/-- C1 (witness): the amended retention equation evaluated on a concrete
store where the normalized keys are `"/a"` and `"/a/b"` and the pattern is
`"/a/*"`. -/
theorem C1_star_crosses_separators_witness :
    (∀ kv ∈ [("/a", some 1), ("/a/b", (some 2 : Option Nat))],
      key.normalize kv.1 = kv.1) ∧
    query_iterable [("/a", some 1), ("/a/b", (some 2 : Option Nat))] "/a/*" none 0
      = List.filter (fun kv => fnmatch.fullmatch (key.normalize "/a/*") kv.1)
          [("/a", some 1), ("/a/b", some 2)] :=
  ⟨by decide, C1_star_crosses_separators.1 _ "/a/*" (by decide)⟩

/-- C7 (counterexample): the claim says a pattern with an unbalanced
(trailing) backslash escape makes the query signal an invalid-argument
failure; but the code has no failure path at all for such patterns — the
query on the pattern `"/a\"` returns normally (retaining the key `"/a\"`,
the backslash being an ordinary character). -/
theorem C7_counterexample :
    query_iterable [("/a\\", (some 1 : Option Nat))] "/a\\" none 0
      = [("/a\\", some 1)] := by decide

/-- C7 (amended): `query_iterable` never signals an invalid-argument failure
for a pattern with a trailing or otherwise "malformed" backslash: `fnmatch`
has no escape syntax, so `translate` turns a backslash into an ordinary
literal token, matching exactly one literal backslash of the key, and the
query on such a pattern returns an ordinary result. -/
theorem C7_no_invalid_pattern_failure :
    (∀ ps : List Char,
      fnmatch.translate ('\\' :: ps) = fnmatch.Tok.lit '\\' :: fnmatch.translate ps) ∧
    (∀ (ts : List fnmatch.Tok) (c : Char) (s : List Char),
      fnmatch.rmatch (fnmatch.Tok.lit '\\' :: ts) (c :: s)
        = (('\\' : Char) == c && fnmatch.rmatch ts s)) ∧
    (∀ v : Option Nat, query_iterable [("/a\\", v)] "/a\\" none 0 = [("/a\\", v)]) := by
  refine ⟨fun ps => rfl, fun ts c s => rfl, fun v => ?_⟩
  have e : query_iterable [("/a\\", v)] "/a\\" none 0
      = matchedEntries [("/a\\", v)] "/a\\" := rfl
  rw [e]
  have h : key.normalize "/a\\" = "/a\\" := by decide
  have h2 : fnmatch.fullmatch "/a\\" "/a\\" = true := by decide
  have h3 : ("/a\\" : String) ≠ "/*" := by decide
  simp [matchedEntries, h, h3, h2]

/-- C8: when the normalized pattern is the canonical match-everything form
`"/*"`, `query_iterable` skips the filtering step entirely: with no limit
and zero offset it returns the input pairs unchanged, and for every
limit/offset it applies exactly the usual pagination (sort by key, then
slice) to the unfiltered input. -/
theorem C8_match_all_passthrough :
    ∀ (entries : List (String × Option Nat)) (p : String),
    key.normalize p = "/*" →
    query_iterable entries p none 0 = entries ∧
    ∀ (L : Option Nat) (O : Nat),
      query_iterable entries p L O = (match L with
        | none => if 0 < O then (sortByKey entries).drop O else entries
        | some l => ((sortByKey entries).drop O).take l) := by
  intro entries p h
  have hme : matchedEntries entries p = entries := by simp [matchedEntries, h]
  constructor
  · rw [show query_iterable entries p none 0 = matchedEntries entries p from rfl, hme]
  · intro L O
    rw [query_iterable_eq, hme]

/-- C8 (witness): the pass-through evaluated for the pattern `"//*"`, whose
normalization is the canonical form `"/*"`, on a two-entry store, both
without pagination and with `limit = 1`. -/
theorem C8_match_all_passthrough_witness :
    key.normalize "//*" = "/*" ∧
    query_iterable [("/b", some 1), ("/a", (some 2 : Option Nat))] "//*" none 0
      = [("/b", some 1), ("/a", some 2)] :=
  ⟨by decide, (C8_match_all_passthrough _ "//*" (by decide)).1⟩

/-- C9: the embedded `NullStore` behaviour: `get` always returns absent, the
inherited default `contains` is always false, `put` and `delete` are no-ops
with no state, and `query` — whose declared signature takes only `limit` and
`offset`, with no `pattern` parameter (the bug behind this claim's
`code_bug` status: a three-argument `query(pattern, limit, offset)` call,
as the abstract `Store.query` interface and the `Shim` forwarding perform
it, raises `TypeError` in Python) — always returns the empty sequence, the
first positional argument landing in the `limit` slot whatever its type. -/
theorem C9_nullstore_behaviour :
    ∀ (k p : String) (v l : Option Nat) (o : Nat),
    (NullStore.get k : Option Nat) = none ∧
    Store.contains (fun j => (NullStore.get j : Option Nat)) k = false ∧
    NullStore.put k v = () ∧
    NullStore.delete k = () ∧
    @NullStore.query (Option Nat) (Option Nat) Nat l o = [] ∧
    @NullStore.query (Option Nat) String Nat p o = [] :=
  fun _ _ _ _ _ => ⟨rfl, rfl, rfl, rfl, rfl, rfl⟩

/-- C10: the absent signal is the Python value `None` itself: after
`DictStore.put k None`, `get k` returns the absent signal while the key is
still present in the raw mapping, so the overridden `DictStore.contains`
still reports it; and a `Cache` whose cache store holds `None` for the key
treats it as a miss and returns whatever the backing store has. -/
theorem C10_none_value_is_absent :
    ∀ (m c b : DictState Nat) (k : String),
    DictStore.get (DictStore.put m k none) k = none ∧
    DictStore.contains (DictStore.put m k none) k = true ∧
    (Cache.get (DictStore.put c k none, b) k).1 = DictStore.get b k := by
  intro m c b k
  refine ⟨dictGetRaw_putRaw_self m (key.normalize k) none,
    dictHasKey_putRaw_self m (key.normalize k) none, ?_⟩
  have h1 : DictStore.get (DictStore.put c k none) k = none :=
    dictGetRaw_putRaw_self c (key.normalize k) none
  cases h2 : DictStore.get b k <;> simp [Cache.get, h1, h2]

/-- C2 (counterexample): after the single operation `put "/a" None`, the
overridden `DictStore.contains` reports the key present while `get` returns
the absent signal — refuting the claim that `contains(k)` is true exactly
when `get(k)` is non-absent after any sequence of put/delete operations. -/
theorem C2_counterexample :
    DictStore.contains (dictRun [Op.put "/a" (none : Option Nat)]) "/a" = true ∧
    DictStore.get (dictRun [Op.put "/a" (none : Option Nat)]) "/a" = none :=
  ⟨by decide, by decide⟩

/-- C2 (amended): `contains` agrees with `get` on every implementation of the
module — the default `Store.contains`, `NullStore` (through the default),
`DictStore` and a `Cache` of `DictStore`s — after any sequence of put/delete
operations *that never stores the absent value `None`*; without that
restriction the overridden `DictStore.contains` can report present a key
whose `get` is absent. -/
theorem C2_contains_agrees_with_get :
    ∀ (ops : List (Op Nat)) (k : String) (g : String → Option Nat),
    (Store.contains g k = true ↔ g k ≠ none) ∧
    (Store.contains (fun j => (NullStore.get j : Option Nat)) k = false) ∧
    (noAbsentPut ops = true →
      (DictStore.contains (dictRun ops) k = true ↔
        DictStore.get (dictRun ops) k ≠ none)) ∧
    (noAbsentPut ops = true →
      (Cache.contains (cacheRun ops) k = true ↔
        (Cache.get (cacheRun ops) k).1 ≠ none)) := by
  intro ops k g
  have hnil : valuesSome ([] : DictState Nat) :=
    fun kv hkv => absurd hkv (List.not_mem_nil kv)
  refine ⟨?_, rfl, ?_, ?_⟩
  · simp [Store.contains, Option.isSome_iff_ne_none]
  · intro hops
    exact dictHasKey_iff_getRaw (dictRun ops) (key.normalize k)
      (dictRunFrom_valuesSome ops [] hnil hops)
  · intro hops
    have hs : valuesSome (dictRun ops) := dictRunFrom_valuesSome ops [] hnil hops
    have he : cacheRun ops = (dictRun ops, dictRun ops) := cacheRunFrom_eq ops ([], [])
    rw [he]
    have hget := dictHasKey_iff_getRaw (dictRun ops) (key.normalize k) hs
    by_cases h1 : DictStore.get (dictRun ops) k = none
    · have hk : dictHasKey (dictRun ops) (key.normalize k) = false :=
        Bool.eq_false_iff.mpr (fun hc => (hget.mp hc) h1)
      constructor
      · intro hc
        exfalso
        simp [Cache.contains, DictStore.contains, hk] at hc
      · intro hv
        exfalso
        exact hv (by simp [Cache.get, h1])
    · rcases Option.ne_none_iff_exists'.mp h1 with ⟨v, hv⟩
      have hk : dictHasKey (dictRun ops) (key.normalize k) = true := hget.mpr h1
      constructor
      · intro _
        simp [Cache.get, hv]
      · intro _
        simp [Cache.contains, DictStore.contains, hk]

/-- C2 (witness): the amended equivalence evaluated after a concrete
`None`-free operation sequence on a fresh `DictStore`. -/
theorem C2_contains_agrees_with_get_witness :
    noAbsentPut [Op.put "/a" (some 1), Op.del "/b"] = true ∧
    (DictStore.contains (dictRun [Op.put "/a" ((some 1 : Option Nat)), Op.del "/b"]) "/a" = true ↔
      DictStore.get (dictRun [Op.put "/a" ((some 1 : Option Nat)), Op.del "/b"]) "/a" ≠ none) :=
  ⟨by decide,
   (C2_contains_agrees_with_get [Op.put "/a" (some 1), Op.del "/b"] "/a"
     (fun _ => none)).2.2.1 (by decide)⟩

/-- C3: on `DictStore` and on a `Cache` of `DictStore`s, `put k v` followed by
`get k` returns `v`, also after further operations on other (normalized) keys;
`delete k` followed by `get k` returns absent; and deleting an absent key
leaves the store unchanged and signals nothing.  The `Nodup` hypotheses state
the dict invariant (a Python dict cannot hold a key twice). -/
theorem C3_put_get_delete :
    ∀ (m : DictState Nat) (st : CacheState Nat) (k : String) (v : Option Nat)
      (ops : List (Op Nat)),
    (∀ op ∈ ops, key.normalize (Op.key op) ≠ key.normalize k) →
    (DictStore.get (dictRunFrom (DictStore.put m k v) ops) k = v) ∧
    ((m.map Prod.fst).Nodup → DictStore.get (DictStore.delete m k) k = none) ∧
    (DictStore.contains m k = false → DictStore.delete m k = m) ∧
    ((Cache.get (cacheRunFrom (Cache.put st k v) ops) k).1 = v) ∧
    ((st.1.map Prod.fst).Nodup → (st.2.map Prod.fst).Nodup →
      (Cache.get (Cache.delete st k) k).1 = none) ∧
    (Cache.contains st k = false → Cache.delete st k = st) := by
  intro m st k v ops hops
  refine ⟨?_, ?_, ?_, ?_, ?_, ?_⟩
  · rw [dictStore_get_runFrom_frame ops k hops]
    exact dictGetRaw_putRaw_self m (key.normalize k) v
  · intro hnd
    exact dictGetRaw_deleteRaw_self m (key.normalize k) hnd
  · intro hc
    exact deleteRaw_of_hasKey_eq_false m (key.normalize k) hc
  · rw [cacheRunFrom_eq]
    have h1 : DictStore.get (dictRunFrom (Cache.put st k v).1 ops) k = v := by
      rw [dictStore_get_runFrom_frame ops k hops]
      exact dictGetRaw_putRaw_self st.1 (key.normalize k) v
    have h2 : DictStore.get (dictRunFrom (Cache.put st k v).2 ops) k = v := by
      rw [dictStore_get_runFrom_frame ops k hops]
      exact dictGetRaw_putRaw_self st.2 (key.normalize k) v
    cases hv : v with
    | some x =>
      rw [hv] at h1
      simp [Cache.get, h1]
    | none =>
      rw [hv] at h1 h2
      simp [Cache.get, h1, h2]
  · intro h1 h2
    have d1 : DictStore.get (DictStore.delete st.1 k) k = none :=
      dictGetRaw_deleteRaw_self st.1 (key.normalize k) h1
    have d2 : DictStore.get (DictStore.delete st.2 k) k = none :=
      dictGetRaw_deleteRaw_self st.2 (key.normalize k) h2
    simp [Cache.get, Cache.delete, d1, d2]
  · intro hc
    have hc' : DictStore.contains st.1 k = false ∧ DictStore.contains st.2 k = false := by
      simpa [Cache.contains, Bool.or_eq_false_iff] using hc
    have e1 : DictStore.delete st.1 k = st.1 :=
      deleteRaw_of_hasKey_eq_false st.1 (key.normalize k) hc'.1
    have e2 : DictStore.delete st.2 k = st.2 :=
      deleteRaw_of_hasKey_eq_false st.2 (key.normalize k) hc'.2
    simp [Cache.delete, e1, e2]

/-- C3 (witness): the round-trip laws evaluated at concrete stores, with an
intervening operation on the unrelated key `"/b"`, and a delete of the
absent key `"/a"` on a store holding only `"/q"`. -/
theorem C3_put_get_delete_witness :
    (∀ op ∈ [Op.put "/b" ((some 1 : Option Nat))],
      key.normalize (Op.key op) ≠ key.normalize "/a") ∧
    DictStore.get (dictRunFrom (DictStore.put ([] : DictState Nat) "/a" (some 7))
      [Op.put "/b" (some 1)]) "/a" = some 7 ∧
    DictStore.delete ([("/q", some 1)] : DictState Nat) "/a" = [("/q", some 1)] ∧
    (Cache.get (cacheRunFrom (Cache.put (([], []) : CacheState Nat) "/a" (some 7))
      [Op.put "/b" (some 1)]) "/a").1 = some 7 :=
  ⟨by decide,
   (C3_put_get_delete [] ([], []) "/a" (some 7) [Op.put "/b" (some 1)] (by decide)).1,
   (C3_put_get_delete [("/q", some 1)] ([], []) "/a" (some 7) [] (by decide)).2.2.1
     (by decide),
   (C3_put_get_delete [] ([], []) "/a" (some 7) [Op.put "/b" (some 1)] (by decide)).2.2.2.1⟩

/-- C4: whenever a limit is given or the offset is positive, `query_iterable`
returns the matching entries sorted by key, sliced from the offset up to the
limit (everything remaining when the limit is unbounded); the page does not
depend on the iteration order of the entries (for duplicate-free keys);
`limit = 0` yields the empty page and an offset at or past the number of
matches yields the empty page. -/
theorem C4_pagination :
    ∀ (entries entries' : List (String × Option Nat)) (p : String)
      (L : Option Nat) (O : Nat),
    ((L ≠ none ∨ 0 < O) →
      ∃ s : List (String × Option Nat),
        s.Perm (matchedEntries entries p) ∧ List.Sorted keyLE s ∧
        query_iterable entries p L O = (s.drop O).take (L.getD s.length)) ∧
    (entries.Perm entries' → (entries.map Prod.fst).Nodup → (L ≠ none ∨ 0 < O) →
      query_iterable entries p L O = query_iterable entries' p L O) ∧
    (query_iterable entries p (some 0) O = []) ∧
    ((matchedEntries entries p).length ≤ O → (L ≠ none ∨ 0 < O) →
      query_iterable entries p L O = []) := by
  intro entries entries' p L O
  refine ⟨?_, ?_, ?_, ?_⟩
  · intro hLO
    refine ⟨sortByKey (matchedEntries entries p), sortByKey_perm _, sortByKey_sorted _, ?_⟩
    rw [query_iterable_eq]
    cases L with
    | some l => rfl
    | none =>
      rcases hLO with h | h
      · exact absurd rfl h
      · rw [if_pos h]
        have hle : ((sortByKey (matchedEntries entries p)).drop O).length
            ≤ (sortByKey (matchedEntries entries p)).length := by
          rw [List.length_drop]
          omega
        simp [List.take_of_length_le hle]
  · intro hperm hnd hLO
    have hmp : (matchedEntries entries p).Perm (matchedEntries entries' p) :=
      matchedEntries_perm p hperm
    have hndm : ((matchedEntries entries p).map Prod.fst).Nodup :=
      List.Nodup.sublist ((matchedEntries_sublist entries p).map Prod.fst) hnd
    have hsort : sortByKey (matchedEntries entries p) = sortByKey (matchedEntries entries' p) :=
      sortByKey_eq_of_perm _ _ hmp hndm
    rw [query_iterable_eq, query_iterable_eq]
    cases L with
    | some l => rw [hsort]
    | none =>
      rcases hLO with h | h
      · exact absurd rfl h
      · rw [if_pos h, if_pos h, hsort]
  · rw [query_iterable_eq]
    simp
  · intro hlen hLO
    have hdrop : (sortByKey (matchedEntries entries p)).drop O = [] := by
      apply List.drop_eq_nil_of_le
      rw [(sortByKey_perm (matchedEntries entries p)).length_eq]
      exact hlen
    rw [query_iterable_eq]
    cases L with
    | some l =>
      rw [hdrop]
      simp
    | none =>
      rcases hLO with h | h
      · exact absurd rfl h
      · rw [if_pos h, hdrop]

/-- C4 (witness): pagination evaluated concretely — the same page for two
iteration orders of the same two-entry store, the empty page for
`limit = 0`, and the empty page for an offset past the matches. -/
theorem C4_pagination_witness :
    ((some 1 : Option Nat) ≠ none ∨ 0 < 0) ∧
    query_iterable [("/b", some 1), ("/a", (some 2 : Option Nat))] "/*" (some 1) 0
      = query_iterable [("/a", some 2), ("/b", some 1)] "/*" (some 1) 0 ∧
    query_iterable [("/b", some 1), ("/a", (some 2 : Option Nat))] "/*" (some 0) 5 = [] ∧
    query_iterable [("/b", some 1), ("/a", (some 2 : Option Nat))] "/*" (some 1) 7 = [] :=
  ⟨Or.inl (by decide),
   (C4_pagination [("/b", some 1), ("/a", some 2)] [("/a", some 2), ("/b", some 1)]
     "/*" (some 1) 0).2.1 (by decide) (by decide) (Or.inl (by decide)),
   (C4_pagination [("/b", some 1), ("/a", some 2)] [] "/*" (some 0) 5).2.2.1,
   (C4_pagination [("/b", some 1), ("/a", some 2)] [] "/*" (some 1) 7).2.2.2
     (by decide) (Or.inl (by decide))⟩

/-- C5: `Cache.get` checks the cache store first; on a hit it returns the
cached value with both stores untouched, whatever the backing store holds;
on a miss with the key present in the backing store it returns the backing
value and writes exactly that value into the cache store, leaving the
backing store untouched; when both stores miss, it returns absent and
touches nothing. -/
theorem C5_cache_get_policy :
    ∀ (c b : DictState Nat) (k : String) (v : Nat),
    (DictStore.get c k = some v →
      ∀ b' : DictState Nat, Cache.get (c, b') k = (some v, (c, b'))) ∧
    (DictStore.get c k = none → DictStore.get b k = some v →
      Cache.get (c, b) k = (some v, (DictStore.put c k (some v), b)) ∧
      DictStore.get (DictStore.put c k (some v)) k = some v) ∧
    (DictStore.get c k = none → DictStore.get b k = none →
      Cache.get (c, b) k = (none, (c, b))) := by
  intro c b k v
  refine ⟨?_, ?_, ?_⟩
  · intro h b'
    simp [Cache.get, h]
  · intro h1 h2
    exact ⟨by simp [Cache.get, h1, h2],
      dictGetRaw_putRaw_self c (key.normalize k) (some v)⟩
  · intro h1 h2
    simp [Cache.get, h1, h2]

/-- C5 (witness): the three cases evaluated concretely — a hit on a cached
`"/x"`, the specification's scenario (backing holds `"/a"`, cache empty, the
miss populates the cache), and a double miss. -/
theorem C5_cache_get_policy_witness :
    Cache.get (([("/x", some 5)], ([] : DictState Nat)) : CacheState Nat) "/x"
      = (some 5, ([("/x", some 5)], [])) ∧
    Cache.get (([], [("/a", some 1)]) : CacheState Nat) "/a"
      = (some 1, (DictStore.put ([] : DictState Nat) "/a" (some 1), [("/a", some 1)])) ∧
    Cache.get (([], []) : CacheState Nat) "/q" = (none, ([], [])) :=
  ⟨(C5_cache_get_policy [("/x", some 5)] [] "/x" 5).1 (by decide) [],
   ((C5_cache_get_policy [] [("/a", some 1)] "/a" 1).2.1 (by decide) (by decide)).1,
   (C5_cache_get_policy [] [] "/q" 0).2.2 (by decide) (by decide)⟩

/-- C6: `Cache.put k v` writes the pair through to both the cache store and
the backing store, so a direct `get` on either returns `v`; `Cache.delete k`
removes the key from both stores, so a direct `get` on either returns
absent.  The `Nodup` hypotheses state the dict invariant of the two
underlying stores. -/
theorem C6_write_through_delete_both :
    ∀ (st : CacheState Nat) (k : String) (v : Option Nat),
    (st.1.map Prod.fst).Nodup → (st.2.map Prod.fst).Nodup →
    DictStore.get (Cache.put st k v).1 k = v ∧
    DictStore.get (Cache.put st k v).2 k = v ∧
    DictStore.get (Cache.delete st k).1 k = none ∧
    DictStore.get (Cache.delete st k).2 k = none := by
  intro st k v h1 h2
  exact ⟨dictGetRaw_putRaw_self st.1 (key.normalize k) v,
    dictGetRaw_putRaw_self st.2 (key.normalize k) v,
    dictGetRaw_deleteRaw_self st.1 (key.normalize k) h1,
    dictGetRaw_deleteRaw_self st.2 (key.normalize k) h2⟩

/-- C6 (witness): write-through and delete-both evaluated on a concrete
cache state holding `"/a"` in both stores: after `put "/a" 2` the backing
store returns `2` directly, and after `delete "/a"` both stores are absent. -/
theorem C6_write_through_delete_both_witness :
    DictStore.get (Cache.put (([("/a", some 1)], [("/a", some 1)]) : CacheState Nat)
      "/a" (some 2)).2 "/a" = some 2 ∧
    DictStore.get (Cache.delete (([("/a", some 1)], [("/a", some 1)]) : CacheState Nat)
      "/a").1 "/a" = none ∧
    DictStore.get (Cache.delete (([("/a", some 1)], [("/a", some 1)]) : CacheState Nat)
      "/a").2 "/a" = none :=
  ⟨(C6_write_through_delete_both ([("/a", some 1)], [("/a", some 1)]) "/a" (some 2)
      (by decide) (by decide)).2.1,
   (C6_write_through_delete_both ([("/a", some 1)], [("/a", some 1)]) "/a" (some 2)
      (by decide) (by decide)).2.2.1,
   (C6_write_through_delete_both ([("/a", some 1)], [("/a", some 1)]) "/a" (some 2)
      (by decide) (by decide)).2.2.2⟩
